import Mathlib

/-!
Verification of the Markdown-to-PDF layout engine in
`src/utils/pdf_utils.py` (function `create_pdf`).

The Python source is shallowly embedded: page-geometry arithmetic is done
over `ℚ` (the source uses IEEE floats, but every constant involved is a
small dyadic value and every claim is about exact arithmetic identities),
strings are `List Char`, and the drawing side effects of the rendering
loop are reified as a trace of `Op` values together with an explicit
page-cursor state.
-/

namespace PdfUtils

/-! ## Page geometry constants

From `reportlab.lib.pagesizes.letter = (612.0, 792.0)`,
`inch = 72`, and the assignments at the top of `create_pdf`:
`y_position = height - 1 * inch`, `margin_left = 0.75 * inch`,
`margin_right = width - 0.75 * inch`, `max_width = margin_right - margin_left`.
-/

def inchPt : ℚ := 72

def pageWidth : ℚ := 612

def pageHeight : ℚ := 792

def marginLeft : ℚ := (3 / 4) * inchPt

def marginRight : ℚ := pageWidth - (3 / 4) * inchPt

def maxWidth : ℚ := marginRight - marginLeft

/-- Bottom margin constant: every fit check in the source compares against
`1 * inch`. -/
def bottomMargin : ℚ := inchPt

/-- Cursor position at the top of a fresh page (`new_page` sets
`y_position = height - 1 * inch`). -/
def pageTop : ℚ := pageHeight - inchPt

/-! ## C1: table column widths

Embeds lines 397-404 of `pdf_utils.py`:

    if num_cols > 2:
        base_col_width = max_width / (num_cols + 1)
        col_widths = [base_col_width] * (num_cols - 1)
        col_widths.append(base_col_width * 2)
    else:
        col_widths = [max_width / num_cols] * num_cols
-/

def colWidths (w : ℚ) (numCols : ℕ) : List ℚ :=
  if 2 < numCols then
    let base : ℚ := w / (numCols + 1)
    List.replicate (numCols - 1) base ++ [base * 2]
  else
    List.replicate numCols (w / numCols)

/-! ## C5: chart image placement

Embeds `draw_current_chart` (lines 203-241): the image of intrinsic pixel
size `W × H` is displayed at 80% of the content width; if the resulting
height exceeds `height - 2 * inch` the height is capped and the width
re-derived from the aspect ratio; the horizontal offset centers the image.
-/

def maxChartHeight : ℚ := pageHeight - 2 * inchPt

/-- The pair (display_width, display_height) as computed by `draw_current_chart`. -/
def chartDims (W H : ℚ) : ℚ × ℚ :=
  let aspect : ℚ := H / W
  let displayWidth : ℚ := maxWidth * (80 / 100)
  let displayHeight : ℚ := displayWidth * aspect
  if maxChartHeight < displayHeight then
    (maxChartHeight / aspect, maxChartHeight)
  else
    (displayWidth, displayHeight)

/-- `x_offset = margin_left + (max_width - display_width) / 2`. -/
def chartXOffset (W H : ℚ) : ℚ :=
  marginLeft + (maxWidth - (chartDims W H).1) / 2

/-! ## Rendering state machine (C2, C3)

The main `while` loop mutates `y_position` (and implicitly the current
page via `c.showPage()` inside `new_page`).  We track the cursor as a
`PState` and reify each drawing call as an `Op`:

* blank line (lines 309-312): `y_position -= 8`, no check, nothing drawn;
* horizontal rule (lines 508-515): a line is drawn at the current
  `y_position`, then `y_position -= 15`, no check;
* paragraph of wrapped height `h` (lines 613-621): if
  `y_position - h < 1 * inch` then `new_page()`; the paragraph is drawn
  with its lower edge at `y_position - h + 10`; then `y_position -= h + 2`;
* table of wrapped height `h` (lines 451-457): if
  `y_position - h < 1 * inch` then `new_page()`; the table is drawn as a
  single unit with its lower edge at `y_position - h`; then
  `y_position -= h + 15`.
-/

structure PState where
  page : ℕ
  y : ℚ
  deriving DecidableEq, Repr

inductive Block where
  | blank : Block
  | rule : Block
  | para (h : ℚ) : Block
  | table (h : ℚ) : Block
  deriving DecidableEq, Repr

inductive Op where
  | pageBreak : Op
  | rule (page : ℕ) (y : ℚ) : Op
  | para (page : ℕ) (bottom : ℚ) : Op
  | table (page : ℕ) (bottom top : ℚ) : Op
  deriving DecidableEq, Repr

/-- Apply new_page() when the fit check fails, otherwise keep the state. -/
def ensureSpace (s : PState) (h : ℚ) : PState × List Op :=
  if s.y - h < bottomMargin then (⟨s.page + 1, pageTop⟩, [Op.pageBreak])
  else (s, [])

def step (s : PState) : Block → PState × List Op
  | Block.blank => (⟨s.page, s.y - 8⟩, [])
  | Block.rule => (⟨s.page, s.y - 15⟩, [Op.rule s.page s.y])
  | Block.para h =>
      let t := ensureSpace s h
      (⟨t.1.page, t.1.y - h - 2⟩, t.2 ++ [Op.para t.1.page (t.1.y - h + 10)])
  | Block.table h =>
      let t := ensureSpace s h
      (⟨t.1.page, t.1.y - h - 15⟩, t.2 ++ [Op.table t.1.page (t.1.y - h) t.1.y])

def render (s : PState) : List Block → PState × List Op
  | [] => (s, [])
  | b :: bs =>
      let t := step s b
      let r := render t.1 bs
      (r.1, t.2 ++ r.2)

def initState : PState := ⟨0, pageTop⟩

/-- An op whose drawn extent stays at or above the bottom margin
(`pageBreak` draws nothing). -/
def opAboveBottom : Op → Prop
  | Op.pageBreak => True
  | Op.rule _ y => bottomMargin ≤ y
  | Op.para _ bottom => bottomMargin ≤ bottom
  | Op.table _ bottom _ => bottomMargin ≤ bottom

end PdfUtils

namespace PdfUtils

/-! ## Theorems for C1 -/

/-- C1. For every rendered table with column count `C > 2`, the first
`C - 1` column widths all equal `content_width / (C + 1)` and the last
equals twice that; for `C ≤ 2` all `C` widths equal `content_width / C`;
in every case the widths sum to the content width (exactly, over `ℚ`). -/
theorem colWidths_spec (w : ℚ) (n : ℕ) (hn : 0 < n) :
    (2 < n →
      (colWidths w n).take (n - 1) = List.replicate (n - 1) (w / (n + 1)) ∧
      (colWidths w n).getLast? = some (w / (n + 1) * 2)) ∧
    (n ≤ 2 → colWidths w n = List.replicate n (w / n)) ∧
    (colWidths w n).sum = w := by
  have h042 : ((n : ℚ) + 1) ≠ 0 := by positivity
  have hne : (n : ℚ) ≠ 0 := Nat.cast_ne_zero.mpr hn.ne'
  refine ⟨fun h2 => ?_, fun h2 => ?_, ?_⟩
  · constructor
    · simp only [colWidths, if_pos h2]
      rw [List.take_append_of_le_length (by simp)]
      simp
    · simp only [colWidths, if_pos h2]
      simp [List.getLast?_append]
  · simp [colWidths, Nat.not_lt.mpr h2]
  · by_cases h2 : 2 < n
    · simp only [colWidths, if_pos h2]
      rw [List.sum_append, List.sum_replicate, List.sum_singleton]
      have hcast : ((n - 1 : ℕ) : ℚ) = (n : ℚ) - 1 := by
        push_cast [Nat.one_le_iff_ne_zero.mpr hn.ne']
        ring
      rw [nsmul_eq_mul, hcast]
      field_simp
      ring
    · simp only [colWidths, if_neg h2]
      rw [List.sum_replicate, nsmul_eq_mul]
      field_simp

/-- Witness for C1 at a concrete 4-column table over the real content
width `maxWidth = 504`. -/
theorem colWidths_spec_witness :
    (colWidths maxWidth 4).sum = maxWidth ∧
    (colWidths maxWidth 4).getLast? = some (maxWidth / 5 * 2) := by
  refine ⟨(colWidths_spec maxWidth 4 (by norm_num)).2.2, ?_⟩
  have h := ((colWidths_spec maxWidth 4 (by norm_num)).1 (by norm_num)).2
  norm_num at h
  exact h

/-! ## Theorems for C2 -/

/-- C2. For every table block whose measured height exceeds the
vertical space remaining above the bottom margin, the rendering step
emits a page break and then draws the table as one atomic op on the fresh
page (spanning `[pageTop - h, pageTop]`); when the table fits, no break is
emitted and the single table op stays on the current page.  In both cases
the trace contains exactly one table op, so a table is never split across
two pages. -/
theorem table_never_split (s : PState) (h : ℚ)
    (hover : s.y - bottomMargin < h) :
    (step s (Block.table h)).2 =
      [Op.pageBreak, Op.table (s.page + 1) (pageTop - h) pageTop] ∧
    (step s (Block.table h)).1 = ⟨s.page + 1, pageTop - h - 15⟩ := by
  have hc : s.y - h < bottomMargin := by linarith
  constructor <;> simp [step, ensureSpace, hc]

/-- Witness for C2: a 400pt-tall table at cursor height 100 forces a break
and lands wholly on the next page. -/
theorem table_never_split_witness :
    (step ⟨0, 100⟩ (Block.table 400)).2 =
      [Op.pageBreak, Op.table 1 (pageTop - 400) pageTop] :=
  (table_never_split ⟨0, 100⟩ 400 (by norm_num [bottomMargin, inchPt])).1

/-! ## Theorems for C3 -/

/-- A run of blank lines only subtracts `8` per line: no check, no page
break, nothing drawn (lines 309-312 of the source). -/
theorem render_blank_run (n : ℕ) (s : PState) :
    render s (List.replicate n Block.blank) = (⟨s.page, s.y - 8 * n⟩, []) := by
  induction n generalizing s with
  | zero => simp [render]
  | succ k ih =>
      simp only [List.replicate_succ, render, step, ih, Prod.mk.injEq,
        PState.mk.injEq]
      refine ⟨⟨trivial, ?_⟩, List.append_nil []⟩
      push_cast
      ring

theorem render_append (s : PState) (xs ys : List Block) :
    render s (xs ++ ys) =
      ((render (render s xs).1 ys).1,
        (render s xs).2 ++ (render (render s xs).1 ys).2) := by
  induction xs generalizing s with
  | nil => simp [render]
  | cons b bs ih => simp [render, ih]

/-- C3, counterexample. The claimed invariant `y_position ≥ 1 inch` is
not maintained: blank lines subtract 8 points each with no fit check
(lines 309-312), so 82 consecutive blank lines drive the cursor from 720
down to 64 < 72 without any page break, and a horizontal rule is then
drawn at `y = 64`, i.e. below the bottom margin — not transiently during
a fit check but as durable page content. -/
theorem cursor_invariant_counterexample :
    (render initState (List.replicate 82 Block.blank ++ [Block.rule])).1.y
        < bottomMargin ∧
    (render initState (List.replicate 82 Block.blank ++ [Block.rule])).2 =
        [Op.rule 0 64] ∧
    (64 : ℚ) < bottomMargin := by
  have h1 : render initState (List.replicate 82 Block.blank) =
      (⟨0, 64⟩, []) := by
    rw [render_blank_run]
    norm_num [initState, pageTop, pageHeight, inchPt]
  rw [render_append, h1]
  norm_num [render, step, bottomMargin, inchPt]

/-- C3, amended. Blank lines and horizontal rules move the cursor down
(by 8 and 15 points) with no bottom-margin check and no page break, so the
cursor can drop below the 1-inch bottom margin across them.  The
bottom-margin guarantee holds only at the per-block fit checks: whenever a
paragraph or a table whose measured height `h` is at most the page content
height (`pageTop - bottomMargin`) is rendered, every op it emits is drawn
at or above the bottom margin (a page break being inserted first when
needed). -/
theorem cursor_margin_amended (s : PState) (h : ℚ)
    (hfit : h ≤ pageTop - bottomMargin) :
    (step s Block.blank = (⟨s.page, s.y - 8⟩, []) ∧
      step s Block.rule = (⟨s.page, s.y - 15⟩, [Op.rule s.page s.y])) ∧
    (∀ op ∈ (step s (Block.para h)).2, opAboveBottom op) ∧
    (∀ op ∈ (step s (Block.table h)).2, opAboveBottom op) := by
  refine ⟨⟨rfl, rfl⟩, ?_, ?_⟩
  · intro op hop
    by_cases hc : s.y - h < bottomMargin
    · simp only [step, ensureSpace, if_pos hc, List.cons_append,
        List.nil_append, List.mem_cons, List.not_mem_nil, or_false] at hop
      rcases hop with rfl | rfl
      · trivial
      · show bottomMargin ≤ pageTop - h + 10
        linarith
    · simp only [step, ensureSpace, if_neg hc, List.nil_append,
        List.mem_cons, List.not_mem_nil, or_false] at hop
      subst hop
      show bottomMargin ≤ s.y - h + 10
      push_neg at hc
      linarith
  · intro op hop
    by_cases hc : s.y - h < bottomMargin
    · simp only [step, ensureSpace, if_pos hc, List.cons_append,
        List.nil_append, List.mem_cons, List.not_mem_nil, or_false] at hop
      rcases hop with rfl | rfl
      · trivial
      · show bottomMargin ≤ pageTop - h
        linarith
    · simp only [step, ensureSpace, if_neg hc, List.nil_append,
        List.mem_cons, List.not_mem_nil, or_false] at hop
      subst hop
      show bottomMargin ≤ s.y - h
      push_neg at hc
      linarith

/-- Witness for the amended C3 at a cursor low on the page with a
100pt-tall paragraph and table. -/
theorem cursor_margin_amended_witness :
    (∀ op ∈ (step ⟨0, 120⟩ (Block.para 100)).2, opAboveBottom op) ∧
    (∀ op ∈ (step ⟨0, 120⟩ (Block.table 100)).2, opAboveBottom op) :=
  ⟨(cursor_margin_amended ⟨0, 120⟩ 100
      (by norm_num [pageTop, bottomMargin, pageHeight, inchPt])).2.1,
   (cursor_margin_amended ⟨0, 120⟩ 100
      (by norm_num [pageTop, bottomMargin, pageHeight, inchPt])).2.2⟩

/-! ## Theorems for C5 -/

/-- C5. For every placed image with intrinsic width `W > 0` and height
`H > 0`: the display width is 80% of the content width and the display
height is `width * (H/W)`; when that height exceeds the page-height budget
`maxChartHeight`, the height is capped at the budget and the width
re-derived as `budget * (W/H)`; the resulting size never exceeds either
bound, the aspect ratio is preserved
(`display_height * W = display_width * H`), and the horizontal offset is
`margin_left + (content_width - display_width) / 2`. -/
theorem chart_placement_spec (W H : ℚ) (hW : 0 < W) (hH : 0 < H) :
    (chartDims W H).1 ≤ maxWidth * (80 / 100) ∧
    (chartDims W H).2 ≤ maxChartHeight ∧
    (chartDims W H).2 * W = (chartDims W H).1 * H ∧
    (maxWidth * (80 / 100) * (H / W) ≤ maxChartHeight →
      chartDims W H = (maxWidth * (80 / 100), maxWidth * (80 / 100) * (H / W))) ∧
    (maxChartHeight < maxWidth * (80 / 100) * (H / W) →
      chartDims W H = (maxChartHeight * (W / H), maxChartHeight)) ∧
    chartXOffset W H = marginLeft + (maxWidth - (chartDims W H).1) / 2 := by
  have hWne : W ≠ 0 := hW.ne'
  have hHne : H ≠ 0 := hH.ne'
  have haspect : (0 : ℚ) < H / W := div_pos hH hW
  have hbudget : (0 : ℚ) < maxChartHeight := by
    norm_num [maxChartHeight, pageHeight, inchPt]
  have hdivmul : maxChartHeight / (H / W) = maxChartHeight * (W / H) := by
    rw [div_div_eq_mul_div, mul_div_assoc]
  by_cases hcap : maxChartHeight < maxWidth * (80 / 100) * (H / W)
  · have hdims : chartDims W H = (maxChartHeight * (W / H), maxChartHeight) := by
      simp only [chartDims, if_pos hcap, hdivmul]
    refine ⟨?_, ?_, ?_, fun hfit => absurd hcap (not_lt.mpr hfit),
      fun _ => hdims, rfl⟩
    · rw [hdims]
      have hlt : maxChartHeight / (H / W) < maxWidth * (80 / 100) :=
        (div_lt_iff₀ haspect).mpr hcap
      rw [hdivmul] at hlt
      exact hlt.le
    · rw [hdims]
    · rw [hdims]
      field_simp
  · have hdims : chartDims W H =
        (maxWidth * (80 / 100), maxWidth * (80 / 100) * (H / W)) := by
      simp only [chartDims, if_neg hcap]
    refine ⟨le_of_eq (by rw [hdims]), ?_, ?_, fun _ => hdims,
      fun hlt => absurd hlt hcap, rfl⟩
    · rw [hdims]
      exact le_of_not_lt hcap
    · rw [hdims]
      field_simp
      ring

/-! ## C4: Korean font resolution

Embeds lines 49-116 of `pdf_utils.py`.  The search list is fixed; a path
"resolves" when the file exists and `registerFont` succeeds, which we
abstract as a predicate `ok` on paths.  When no regular-font path
resolves, `create_pdf` raises `RuntimeError` with the remediation message
*before* the output buffer or canvas is created (line 107 precedes line
119), so the error value carries no rendered content.  Paths and the
message are `List Char`; `fontsDir` and `home` are parameters (they come
from `Path(__file__)` and `Path.home()`). -/

def fontPaths (fontsDir home : List Char) : List (List Char) :=
  [ fontsDir ++ "/NanumGothic.ttf".data
  , fontsDir ++ "/MALGUN.TTF".data
  , fontsDir ++ "/malgun.ttf".data
  , home ++ "/Library/Fonts/NanumGothic.ttf".data
  , home ++ "/Library/Fonts/NanumBarunGothic.ttf".data
  , "/System/Library/Fonts/Supplemental/AppleGothic.ttf".data
  , "/Library/Fonts/AppleGothic.ttf".data
  , "C:/Windows/Fonts/malgun.ttf".data
  , "C:/Windows/Fonts/MALGUN.TTF".data ]

def resolveFont (ok : List Char → Bool) (fontsDir home : List Char) :
    Option (List Char) :=
  (fontPaths fontsDir home).find? ok

def fontMsgPre : List Char :=
  "한글 폰트를 찾을 수 없습니다.\n\nPDF 생성을 위해:\n1. https://hangeul.naver.com/font 에서 나눔고딕 다운로드\n2. ".data

def fontMsgPost : List Char :=
  " 폴더에 NanumGothic.ttf 파일 복사\n3. 애플리케이션 재시작\n".data

def fontErrorMessage (fontsDir : List Char) : List Char :=
  fontMsgPre ++ fontsDir ++ fontMsgPost

/-- The create_pdf entry point, at the level C4 needs: the font precondition gates
everything; on success the document renders, on failure the error carries
the remediation message and no ops. -/
def createPdf (ok : List Char → Bool) (fontsDir home : List Char)
    (blocks : List Block) : Except (List Char) (PState × List Op) :=
  match resolveFont ok fontsDir home with
  | none => Except.error (fontErrorMessage fontsDir)
  | some _ => Except.ok (render initState blocks)

/-- C4. If no path in the fixed search list resolves, `create_pdf`
fails with the font error before anything is drawn (the error value
carries no ops), the message contains the expected file name
`NanumGothic.ttf` and the install location `fontsDir`; and whenever some
path resolves, no error is raised. -/
theorem font_precondition_spec (ok : List Char → Bool)
    (fontsDir home : List Char) (blocks : List Block)
    (hnone : resolveFont ok fontsDir home = none) :
    createPdf ok fontsDir home blocks =
      Except.error (fontErrorMessage fontsDir) ∧
    (∃ s t, s ++ "NanumGothic.ttf".data ++ t = fontErrorMessage fontsDir) ∧
    (∃ s t, s ++ fontsDir ++ t = fontErrorMessage fontsDir) ∧
    (∀ (ok' : List Char → Bool) (d h : List Char) (bs : List Block) (p : List Char),
      resolveFont ok' d h = some p →
      createPdf ok' d h bs = Except.ok (render initState bs)) := by
  refine ⟨by simp [createPdf, hnone], ?_, ?_, ?_⟩
  · refine ⟨fontMsgPre ++ fontsDir ++ " 폴더에 ".data,
      " 파일 복사\n3. 애플리케이션 재시작\n".data, ?_⟩
    have hpost : (" 폴더에 ".data ++ "NanumGothic.ttf".data ++
        " 파일 복사\n3. 애플리케이션 재시작\n".data : List Char) = fontMsgPost := by
      decide
    simp only [fontErrorMessage, List.append_assoc, hpost]
  · exact ⟨fontMsgPre, fontMsgPost, by simp [fontErrorMessage]⟩
  · intro ok' d h bs p hsome
    simp [createPdf, hsome]

/-- Witness for C4 with the always-failing resolver: no path exists, the
error is produced with both the file name and the install directory in
the message. -/
theorem font_precondition_spec_witness :
    createPdf (fun _ => false) ("fonts".data) ("/home/u".data) [] =
      Except.error (fontErrorMessage ("fonts".data)) ∧
    (∃ s t, s ++ "NanumGothic.ttf".data ++ t = fontErrorMessage ("fonts".data)) :=
  ⟨(font_precondition_spec (fun _ => false) ("fonts".data) ("/home/u".data) []
      (by decide)).1,
   (font_precondition_spec (fun _ => false) ("fonts".data) ("/home/u".data) []
      (by decide)).2.1⟩

/-- Witness for C5: the spec's own scenario, a 1600 × 900 image.  Its
display width is 80% of the 504pt content width (403.2pt) and its height
is `403.2 * 900 / 1600 = 226.8 ≤ 648`, so no capping occurs. -/
theorem chart_placement_spec_witness :
    chartDims 1600 900 = (2016 / 5, 1134 / 5) ∧
    (chartDims 1600 900).2 * 1600 = (chartDims 1600 900).1 * 900 := by
  have h := chart_placement_spec 1600 900 (by norm_num) (by norm_num)
  refine ⟨?_, h.2.2.1⟩
  have hfit : maxWidth * (80 / 100) * ((900 : ℚ) / 1600) ≤ maxChartHeight := by
    norm_num [maxWidth, marginLeft, marginRight, pageWidth, inchPt,
      maxChartHeight, pageHeight]
  rw [h.2.2.2.1 hfit]
  norm_num [maxWidth, marginLeft, marginRight, pageWidth, inchPt]

/-! ## C6: table cell parsing

Embeds lines 306-341 of `pdf_utils.py`.  A line is stripped
(`lines[i].strip()`), split on `"|"`, each cell stripped, and *empty cells
are discarded* (`[c for c in row_cells if c]`).  The data-row loop stops
at the first blank or pipe-free line, skips rows whose cells are all
empty, and appends every other row's cell list as-is — there is no
padding to the header length anywhere, and `wrapped_data` (lines 376-395)
maps each row's cells one-to-one into paragraphs without changing lengths.
-/

def trimChars (l : List Char) : List Char :=
  ((l.dropWhile Char.isWhitespace).reverse.dropWhile Char.isWhitespace).reverse

/-- Python expression [c.strip() for c in line.split("|") if c.strip()] — the cell list of
one row. -/
def splitCells (l : List Char) : List (List Char) :=
  ((l.splitOn '|').map trimChars).filter (fun c => !c.isEmpty)

/-- The while loop collecting data rows (lines 330-338). -/
def collectRows : List (List Char) → List (List (List Char))
  | [] => []
  | l :: rest =>
      let rl := trimChars l
      if rl.isEmpty || !rl.contains '|' then []
      else if (splitCells rl).isEmpty then collectRows rest
      else splitCells rl :: collectRows rest

/-- Header row followed by the collected data rows — the `table_data`
value handed to the layout code. -/
def tableData (headerLine : List Char) (rest : List (List Char)) :
    List (List (List Char)) :=
  splitCells (trimChars headerLine) :: collectRows rest

/-- A line the data-row loop accepts: non-blank and containing a pipe. -/
def goodRow (rl : List Char) : Bool := !rl.isEmpty && rl.contains '|'

/-- C6, counterexample. A table whose header has 3 cells and whose
single data row `| x |` has 1 cell is rendered (it has 2 rows), and the
data row reaches layout with 1 cell — it is not padded with empty
trailing cells to the header length 3. -/
theorem jagged_rows_counterexample :
    tableData ("| A | B | C |".data) [("| x |".data)] =
      [["A".data, "B".data, "C".data], ["x".data]] ∧
    (tableData ("| A | B | C |".data) [("| x |".data)]).map List.length = [3, 1] ∧
    ¬ (∀ row ∈ tableData ("| A | B | C |".data) [("| x |".data)],
        row.length = 3) := by
  refine ⟨by decide, by decide, fun hall => ?_⟩
  have hmem := hall [("x".data)] (by decide)
  simp at hmem

/-- C6, amended. Jagged rows are not normalized: the data-row loop
takes rows up to the first blank or pipe-free line, and each surviving row
contributes exactly its own non-empty stripped cells (empty cells are
dropped, which also shifts later cells left; rows whose cells are all
empty are skipped entirely; no row is padded to the header length). -/
theorem jagged_rows_amended (lines : List (List Char)) :
    collectRows lines =
      (((lines.map trimChars).takeWhile goodRow).map splitCells).filter
        (fun c => !c.isEmpty) := by
  induction lines with
  | nil => rfl
  | cons l rest ih =>
      cases h1 : (trimChars l).isEmpty with
      | true => simp [collectRows, goodRow, h1]
      | false =>
          cases h2 : (trimChars l).contains '|' with
          | false =>
              have h2' : ¬('|' ∈ trimChars l) := by simpa using h2
              simp [collectRows, goodRow, h1, h2, h2']
          | true =>
              have h2' : '|' ∈ trimChars l := by simpa using h2
              cases h3 : (splitCells (trimChars l)).isEmpty with
              | true => simp [collectRows, goodRow, h1, h2, h2', h3, ih]
              | false => simp [collectRows, goodRow, h1, h2, h2', h3, ih]

/-! ## Inline text formatting (C7, C10)

The paragraph path (lines 593-604) applies, in this order:

    text = re.sub(r"`(.+?)`", r"\1", text)          -- strip code markers
    text = re.sub(r"\[(.+?)\]\(.+?\)", r"\1", text) -- strip links
    escaped = text.replace("&","&amp;").replace("<","&lt;").replace(">","&gt;")
    bold = re.sub(r"\*\*(.+?)\*\*", r"<b>\1</b>", escaped)

The bullet path (lines 521-525), numbered path (lines 561-565) and table
cells (lines 380-389) apply only the escape and the bold substitution;
headings (lines 265-268) strip the leading hash markers and escape only.

Each `re.sub` is modeled as a scanner on `List Char` with the exact
leftmost non-overlapping, lazy-group semantics of the Python patterns.
The scanners take a fuel argument (the input length suffices) so that
they are structurally recursive and compute inside the kernel.
-/

def backtickChar : Char := Char.ofNat 96

/-- Split at the first backtick: `l = p ++ backtick :: q`. -/
def findTick : List Char → Option (List Char × List Char)
  | [] => none
  | c :: rest =>
      if c = backtickChar then some ([], rest)
      else (findTick rest).map (fun pq => (c :: pq.1, pq.2))

/-- Lazy match of the tail of a backtick pair with non-empty group:
the first closing backtick at index at least 1. -/
def tickClose : List Char → Option (List Char × List Char)
  | [] => none
  | c :: rest => (findTick rest).map (fun pq => (c :: pq.1, pq.2))

def stripCodeF : ℕ → List Char → List Char
  | 0, l => l
  | _ + 1, [] => []
  | f + 1, c :: rest =>
      if c = backtickChar then
        match tickClose rest with
        | some pq => pq.1 ++ stripCodeF f pq.2
        | none => c :: stripCodeF f rest
      else c :: stripCodeF f rest

def stripCode (l : List Char) : List Char := stripCodeF l.length l

/-- Split at the first occurrence of the two characters bracket-close
then paren-open: `l = p ++ ']' :: '(' :: q`. -/
def findBP : List Char → Option (List Char × List Char)
  | [] => none
  | c :: rest =>
      if c = ']' then
        match rest with
        | [] => none
        | c2 :: rest2 =>
            if c2 = '(' then some ([], rest2)
            else (findBP rest).map (fun pq => (c :: pq.1, pq.2))
      else (findBP rest).map (fun pq => (c :: pq.1, pq.2))

def findParen : List Char → Option (List Char × List Char)
  | [] => none
  | c :: rest =>
      if c = ')' then some ([], rest)
      else (findParen rest).map (fun pq => (c :: pq.1, pq.2))

/-- First closing paren at index at least 1 (the url group is `(.+?)`,
hence non-empty). -/
def parenClose : List Char → Option (List Char × List Char)
  | [] => none
  | c :: rest => (findParen rest).map (fun pq => (c :: pq.1, pq.2))

/-- Lazy match of the tail of a link after the opening bracket: a
non-empty label up to the first close-bracket/open-paren pair for which a
closing paren completes the match, returning the label and the rest after
the match.  Regex backtracking collapses to "first occurrence": if no
closing paren exists after the first such pair, none exists after any
later one either. -/
def linkMatch (l : List Char) : Option (List Char × List Char) :=
  match l with
  | [] => none
  | c :: rest =>
      match findBP rest with
      | none => none
      | some pq =>
          match parenClose pq.2 with
          | none => none
          | some uv => some (c :: pq.1, uv.2)

def stripLinksF : ℕ → List Char → List Char
  | 0, l => l
  | _ + 1, [] => []
  | f + 1, c :: rest =>
      if c = '[' then
        match linkMatch rest with
        | some pq => pq.1 ++ stripLinksF f pq.2
        | none => c :: stripLinksF f rest
      else c :: stripLinksF f rest

def stripLinks (l : List Char) : List Char := stripLinksF l.length l

/-- One character of the escape pass.  The source chains
`.replace("&","&amp;").replace("<","&lt;").replace(">","&gt;")`; the
chain equals this single pass because the later replacements introduce no
characters that the earlier ones rewrite (the ampersands inside the
inserted entities are produced after the ampersand pass). -/
def escapeChar (c : Char) : List Char :=
  if c = '&' then "&amp;".data
  else if c = '<' then "&lt;".data
  else if c = '>' then "&gt;".data
  else [c]

def escapeHtml (l : List Char) : List Char := l.flatMap escapeChar

/-- Split at the first occurrence of two consecutive stars:
`l = p ++ '*' :: '*' :: q`, `p` star-pair-free before it. -/
def findStars2 : List Char → Option (List Char × List Char)
  | [] => none
  | c :: rest =>
      if c = '*' then
        match rest with
        | [] => none
        | c2 :: rest2 =>
            if c2 = '*' then some ([], rest2)
            else (findStars2 rest).map (fun pq => (c :: pq.1, pq.2))
      else (findStars2 rest).map (fun pq => (c :: pq.1, pq.2))

/-- Lazy close of a bold pair: non-empty content up to the first double
star at index at least 1. -/
def findBoldClose : List Char → Option (List Char × List Char)
  | [] => none
  | c :: rest => (findStars2 rest).map (fun pq => (c :: pq.1, pq.2))

def boldifyF : ℕ → List Char → List Char
  | 0, l => l
  | _ + 1, [] => []
  | f + 1, c :: rest =>
      if c = '*' then
        match rest with
        | [] => [c]
        | c2 :: rest2 =>
            if c2 = '*' then
              match findBoldClose rest2 with
              | some pq =>
                  '<' :: 'b' :: '>' ::
                    (pq.1 ++ '<' :: '/' :: 'b' :: '>' :: boldifyF f pq.2)
              | none => c :: c2 :: boldifyF f rest2
            else c :: boldifyF f rest
      else c :: boldifyF f rest

def boldify (l : List Char) : List Char := boldifyF l.length l

/-- Model of `re.sub(r"^#{1,6}\s+", "", text)` in `draw_heading`: strip
1-6 leading hash marks and the following whitespace run; with 7 or more
hashes or no whitespace after them, the pattern does not match. -/
def stripHeadingMarks (l : List Char) : List Char :=
  let hashes := l.takeWhile (fun c => c = '#')
  if 1 ≤ hashes.length ∧ hashes.length ≤ 6 then
    let rest := l.dropWhile (fun c => c = '#')
    if (rest.takeWhile Char.isWhitespace).isEmpty then l
    else rest.dropWhile Char.isWhitespace
  else l

/-- Paragraph text pipeline, lines 593-604. -/
def paragraphTransform (l : List Char) : List Char :=
  boldify (escapeHtml (stripLinks (stripCode l)))

/-- Bullet item text pipeline, lines 521-525. -/
def bulletTransform (l : List Char) : List Char :=
  boldify (escapeHtml l)

/-- Numbered item text pipeline, lines 561-565. -/
def numberedTransform (l : List Char) : List Char :=
  boldify (escapeHtml l)

/-- Table cell text pipeline, lines 380-389. -/
def cellTransform (l : List Char) : List Char :=
  boldify (escapeHtml l)

/-- Heading text pipeline, lines 265-268. -/
def headingTransform (l : List Char) : List Char :=
  escapeHtml (stripHeadingMarks l)

/-- C7. Paragraph inline formatting is, definitionally, the composition
strip-code then strip-links then escape then boldify, in that fixed
order; code markers keep only the inner text, links keep only the label;
and because escaping runs strictly before bold conversion, the input
consisting of a bold pair around a raw tag produces an emphasized escaped
literal instead of injected raw markup (while the reverse order would
produce a different, fully escaped string).  The spec's bold round-trip
example also holds. -/
theorem inline_format_order :
    (∀ l : List Char,
      paragraphTransform l = boldify (escapeHtml (stripLinks (stripCode l)))) ∧
    paragraphTransform ("**<b>**".data) = ("<b>&lt;b&gt;</b>".data) ∧
    paragraphTransform ("**A** and **B**".data) =
      ("<b>A</b> and <b>B</b>".data) ∧
    paragraphTransform ("`x` y".data) = ("x y".data) ∧
    paragraphTransform ("[label](http://e)".data) = ("label".data) ∧
    boldify (escapeHtml ("**<b>**".data)) ≠
      escapeHtml (boldify ("**<b>**".data)) :=
  ⟨fun _ => rfl, by decide, by decide, by decide, by decide, by decide⟩

/-! ### Lemmas for C10: the non-paragraph pipelines leave backtick and
link characters in place -/

/-- The characters that make up inline-code markers and link syntax. -/
def keepChar (c : Char) : Bool :=
  c = backtickChar || c = '[' || c = ']' || c = '(' || c = ')'

theorem escapeHtml_filter (l : List Char) :
    (escapeHtml l).filter keepChar = l.filter keepChar := by
  induction l with
  | nil => rfl
  | cons c rest ih =>
      have hstep : escapeHtml (c :: rest) = escapeChar c ++ escapeHtml rest := rfl
      rw [hstep, List.filter_append, ih, List.filter_cons]
      by_cases h1 : c = '&'
      · subst h1
        have e1 : (escapeChar '&').filter keepChar = [] := by decide
        have e2 : keepChar '&' = false := by decide
        rw [e1, e2]
        simp
      by_cases h2 : c = '<'
      · subst h2
        have e1 : (escapeChar '<').filter keepChar = [] := by decide
        have e2 : keepChar '<' = false := by decide
        rw [e1, e2]
        simp
      by_cases h3 : c = '>'
      · subst h3
        have e1 : (escapeChar '>').filter keepChar = [] := by decide
        have e2 : keepChar '>' = false := by decide
        rw [e1, e2]
        simp
      have e1 : escapeChar c = [c] := by simp [escapeChar, h1, h2, h3]
      rw [e1, List.filter_cons]
      by_cases hk : keepChar c = true <;> simp [hk]

theorem findStars2_two (rest : List Char) :
    findStars2 ('*' :: '*' :: rest) = some ([], rest) := rfl

theorem findStars2_star_nil : findStars2 ['*'] = none := rfl

theorem findStars2_star_cons (c2 : Char) (rest2 : List Char) (hc2 : c2 ≠ '*') :
    findStars2 ('*' :: c2 :: rest2) =
      (findStars2 (c2 :: rest2)).map (fun pq => ('*' :: pq.1, pq.2)) := by
  show (if c2 = '*' then some ([], rest2)
      else (findStars2 (c2 :: rest2)).map (fun pq => ('*' :: pq.1, pq.2))) = _
  rw [if_neg hc2]

theorem findStars2_not_star (c : Char) (rest : List Char) (hc : c ≠ '*') :
    findStars2 (c :: rest) =
      (findStars2 rest).map (fun pq => (c :: pq.1, pq.2)) := by
  show (if c = '*' then _ else _) = _
  rw [if_neg hc]

theorem findStars2_eq : ∀ {l p q : List Char},
    findStars2 l = some (p, q) → l = p ++ '*' :: '*' :: q := by
  intro l
  induction l with
  | nil => intro p q h; exact absurd h (by simp [findStars2])
  | cons c rest ih =>
      intro p q h
      by_cases hc : c = '*'
      · subst hc
        cases rest with
        | nil => exact absurd h (by rw [findStars2_star_nil]; simp)
        | cons c2 rest2 =>
            by_cases hc2 : c2 = '*'
            · subst hc2
              rw [findStars2_two] at h
              simp only [Option.some.injEq, Prod.mk.injEq] at h
              obtain ⟨rfl, rfl⟩ := h
              rfl
            · rw [findStars2_star_cons c2 rest2 hc2] at h
              cases hm : findStars2 (c2 :: rest2) with
              | none => rw [hm] at h; exact absurd h (by simp)
              | some pq =>
                  rw [hm] at h
                  simp only [Option.map_some', Option.some.injEq,
                    Prod.mk.injEq] at h
                  obtain ⟨h1, h2⟩ := h
                  subst h2
                  rw [← h1]
                  exact congrArg (fun t => '*' :: t) (ih hm)
      · rw [findStars2_not_star c rest hc] at h
        cases hm : findStars2 rest with
        | none => rw [hm] at h; exact absurd h (by simp)
        | some pq =>
            rw [hm] at h
            simp only [Option.map_some', Option.some.injEq, Prod.mk.injEq] at h
            obtain ⟨h1, h2⟩ := h
            subst h2
            rw [← h1]
            exact congrArg (fun t => c :: t) (ih hm)

theorem findBoldClose_eq {l p q : List Char}
    (h : findBoldClose l = some (p, q)) :
    l = p ++ '*' :: '*' :: q ∧ p ≠ [] := by
  cases l with
  | nil => exact absurd h (by simp [findBoldClose])
  | cons c rest =>
      have hstep : findBoldClose (c :: rest) =
          (findStars2 rest).map (fun pq => (c :: pq.1, pq.2)) := rfl
      rw [hstep] at h
      cases hm : findStars2 rest with
      | none => rw [hm] at h; exact absurd h (by simp)
      | some pq =>
          rw [hm] at h
          simp only [Option.map_some', Option.some.injEq, Prod.mk.injEq] at h
          obtain ⟨h1, h2⟩ := h
          subst h2
          refine ⟨?_, by rw [← h1]; simp⟩
          rw [← h1]
          exact congrArg (fun t => c :: t) (findStars2_eq hm)

theorem boldifyF_star_star_some (f : ℕ) (rest2 : List Char)
    (pq : List Char × List Char) (hm : findBoldClose rest2 = some pq) :
    boldifyF (f + 1) ('*' :: '*' :: rest2) =
      '<' :: 'b' :: '>' ::
        (pq.1 ++ '<' :: '/' :: 'b' :: '>' :: boldifyF f pq.2) := by
  show (match findBoldClose rest2 with
    | some pq => '<' :: 'b' :: '>' ::
        (pq.1 ++ '<' :: '/' :: 'b' :: '>' :: boldifyF f pq.2)
    | none => '*' :: '*' :: boldifyF f rest2) = _
  rw [hm]

theorem boldifyF_star_star_none (f : ℕ) (rest2 : List Char)
    (hm : findBoldClose rest2 = none) :
    boldifyF (f + 1) ('*' :: '*' :: rest2) = '*' :: '*' :: boldifyF f rest2 := by
  show (match findBoldClose rest2 with
    | some pq => '<' :: 'b' :: '>' ::
        (pq.1 ++ '<' :: '/' :: 'b' :: '>' :: boldifyF f pq.2)
    | none => '*' :: '*' :: boldifyF f rest2) = _
  rw [hm]

theorem boldifyF_star_one (f : ℕ) : boldifyF (f + 1) ['*'] = ['*'] := rfl

theorem boldifyF_star_other (f : ℕ) (c2 : Char) (rest2 : List Char)
    (hc2 : c2 ≠ '*') :
    boldifyF (f + 1) ('*' :: c2 :: rest2) = '*' :: boldifyF f (c2 :: rest2) := by
  show (if c2 = '*' then
      (match findBoldClose rest2 with
        | some pq => '<' :: 'b' :: '>' ::
            (pq.1 ++ '<' :: '/' :: 'b' :: '>' :: boldifyF f pq.2)
        | none => '*' :: c2 :: boldifyF f rest2)
    else '*' :: boldifyF f (c2 :: rest2)) = _
  rw [if_neg hc2]

theorem boldifyF_other (f : ℕ) (c : Char) (rest : List Char) (hc : c ≠ '*') :
    boldifyF (f + 1) (c :: rest) = c :: boldifyF f rest := by
  show (if c = '*' then _ else _) = _
  rw [if_neg hc]

theorem boldifyF_filter : ∀ (f : ℕ) (l : List Char), l.length ≤ f →
    (boldifyF f l).filter keepChar = l.filter keepChar := by
  intro f
  induction f with
  | zero =>
      intro l hl
      have hnil : l = [] := List.eq_nil_of_length_eq_zero (Nat.le_zero.mp hl)
      subst hnil
      rfl
  | succ f ih =>
      intro l hl
      cases l with
      | nil => rfl
      | cons c rest =>
          have hstar : keepChar '*' = false := by decide
          by_cases hc : c = '*'
          · subst hc
            cases rest with
            | nil => rfl
            | cons c2 rest2 =>
                have hlen2 : rest2.length ≤ f - 1 := by
                  simp only [List.length_cons] at hl
                  omega
                by_cases hc2 : c2 = '*'
                · subst hc2
                  cases hm : findBoldClose rest2 with
                  | none =>
                      rw [boldifyF_star_star_none f rest2 hm]
                      rw [List.filter_cons, List.filter_cons,
                        List.filter_cons, List.filter_cons, hstar]
                      simp only [Bool.false_eq_true, if_false]
                      exact ih rest2 (by omega)
                  | some pq =>
                      obtain ⟨hdec, -⟩ := findBoldClose_eq hm
                      have hlens : rest2.length =
                          pq.1.length + 2 + pq.2.length := by
                        rw [hdec]
                        simp [List.length_append]
                        omega
                      have hlen : pq.2.length ≤ f := by omega
                      rw [boldifyF_star_star_some f rest2 pq hm]
                      have hko : keepChar '<' = false := by decide
                      have hkc : keepChar '>' = false := by decide
                      have hkb : keepChar 'b' = false := by decide
                      have hks : keepChar '/' = false := by decide
                      rw [List.filter_cons, List.filter_cons, List.filter_cons,
                        hko, hkb, hkc]
                      simp only [Bool.false_eq_true, if_false]
                      rw [List.filter_append, List.filter_cons,
                        List.filter_cons, List.filter_cons, List.filter_cons,
                        hko, hks, hkb, hkc]
                      simp only [Bool.false_eq_true, if_false]
                      rw [ih pq.2 hlen]
                      rw [List.filter_cons, List.filter_cons, hstar]
                      simp only [Bool.false_eq_true, if_false]
                      rw [hdec, List.filter_append, List.filter_cons,
                        List.filter_cons, hstar]
                      simp only [Bool.false_eq_true, if_false]
                · rw [boldifyF_star_other f c2 rest2 hc2]
                  rw [List.filter_cons, List.filter_cons, hstar]
                  simp only [Bool.false_eq_true, if_false]
                  exact ih (c2 :: rest2) (by simp only [List.length_cons] at hl ⊢; omega)
          · rw [boldifyF_other f c rest hc]
            rw [List.filter_cons, List.filter_cons]
            have hrec := ih rest (by simp only [List.length_cons] at hl; omega)
            by_cases hk : keepChar c = true
            · rw [hk]
              simp only [if_true]
              rw [hrec]
            · rw [Bool.not_eq_true] at hk
              rw [hk]
              simp only [Bool.false_eq_true, if_false]
              exact hrec

theorem filter_keep_nil_of (l : List Char)
    (h : ∀ a ∈ l, keepChar a = false) : l.filter keepChar = [] := by
  induction l with
  | nil => rfl
  | cons c rest ih =>
      rw [List.filter_cons, h c (List.mem_cons_self c rest)]
      simp only [Bool.false_eq_true, if_false]
      exact ih (fun a ha => h a (List.mem_cons_of_mem c ha))

theorem ws_not_keep (c : Char) (hw : c.isWhitespace = true) :
    keepChar c = false := by
  by_contra hk
  rw [Bool.not_eq_false] at hk
  simp only [keepChar, Bool.or_eq_true, decide_eq_true_eq] at hk
  rcases hk with (((h | h) | h) | h) | h <;> subst h <;>
    exact absurd hw (by decide)

theorem stripHeadingMarks_filter (l : List Char) :
    (stripHeadingMarks l).filter keepChar = l.filter keepChar := by
  unfold stripHeadingMarks
  by_cases h1 : 1 ≤ (l.takeWhile (fun c => c = '#')).length ∧
      (l.takeWhile (fun c => c = '#')).length ≤ 6
  · rw [if_pos h1]
    by_cases h2 : ((l.dropWhile (fun c => c = '#')).takeWhile
        Char.isWhitespace).isEmpty = true
    · rw [if_pos h2]
    · rw [if_neg h2]
      have hsplit1 : l.filter keepChar =
          (l.takeWhile (fun c => c = '#')).filter keepChar ++
            (l.dropWhile (fun c => c = '#')).filter keepChar := by
        conv_lhs =>
          rw [← @List.takeWhile_append_dropWhile _ (fun c => decide (c = '#')) l]
        rw [List.filter_append]
      have hh : (l.takeWhile (fun c => c = '#')).filter keepChar = [] := by
        apply filter_keep_nil_of
        intro a ha
        have := List.mem_takeWhile_imp ha
        simp only [decide_eq_true_eq] at this
        subst this
        decide
      have hsplit2 :
          (l.dropWhile (fun c => c = '#')).filter keepChar =
            ((l.dropWhile (fun c => c = '#')).takeWhile
                Char.isWhitespace).filter keepChar ++
              ((l.dropWhile (fun c => c = '#')).dropWhile
                Char.isWhitespace).filter keepChar := by
        conv_lhs =>
          rw [← @List.takeWhile_append_dropWhile _ Char.isWhitespace
            (l.dropWhile (fun c => c = '#'))]
        rw [List.filter_append]
      have hw : ((l.dropWhile (fun c => c = '#')).takeWhile
          Char.isWhitespace).filter keepChar = [] := by
        apply filter_keep_nil_of
        intro a ha
        exact ws_not_keep a (List.mem_takeWhile_imp ha)
      rw [hsplit1, hh, List.nil_append, hsplit2, hw, List.nil_append]
  · rw [if_neg h1]

theorem escapeHtml_id (l : List Char)
    (h : ∀ c ∈ l, c ≠ '&' ∧ c ≠ '<' ∧ c ≠ '>') : escapeHtml l = l := by
  induction l with
  | nil => rfl
  | cons c rest ih =>
      have hc := h c (List.mem_cons_self c rest)
      have hstep : escapeHtml (c :: rest) = escapeChar c ++ escapeHtml rest := rfl
      rw [hstep, ih (fun a ha => h a (List.mem_cons_of_mem c ha))]
      simp [escapeChar, hc.1, hc.2.1, hc.2.2]

theorem boldifyF_id : ∀ (f : ℕ) (l : List Char), l.length ≤ f →
    (∀ c ∈ l, c ≠ '*') → boldifyF f l = l := by
  intro f
  induction f with
  | zero =>
      intro l hl _
      have hnil : l = [] := List.eq_nil_of_length_eq_zero (Nat.le_zero.mp hl)
      subst hnil
      rfl
  | succ f ih =>
      intro l hl h
      cases l with
      | nil => rfl
      | cons c rest =>
          have hc := h c (List.mem_cons_self c rest)
          rw [boldifyF_other f c rest hc,
            ih rest (by simp only [List.length_cons] at hl; omega)
              (fun a ha => h a (List.mem_cons_of_mem c ha))]

/-- C10. The stripping of backtick code markers and of link markup is
applied only on the plain-paragraph path.  For bullets, numbered items,
table cells and headings, the transforms preserve the backtick, bracket
and paren characters exactly (as the subsequence selected by `keepChar`),
and on text free of the characters the escape/bold passes do rewrite
(star, ampersand, angle brackets) the bullet, numbered and cell
transforms are the identity — backticks and full link syntax are rendered
literally; the paragraph transform, by contrast, removes them. -/
theorem literal_markup_outside_paragraphs :
    (∀ l : List Char,
      (bulletTransform l).filter keepChar = l.filter keepChar) ∧
    (∀ l : List Char,
      (numberedTransform l).filter keepChar = l.filter keepChar) ∧
    (∀ l : List Char,
      (cellTransform l).filter keepChar = l.filter keepChar) ∧
    (∀ l : List Char,
      (headingTransform l).filter keepChar = l.filter keepChar) ∧
    (∀ l : List Char, (∀ c ∈ l, c ≠ '*' ∧ c ≠ '&' ∧ c ≠ '<' ∧ c ≠ '>') →
      bulletTransform l = l ∧ numberedTransform l = l ∧ cellTransform l = l) ∧
    bulletTransform ("`x` and [a](b)".data) = ("`x` and [a](b)".data) ∧
    paragraphTransform ("`x` and [a](b)".data) = ("x and a".data) := by
  have hbe : ∀ l : List Char,
      (boldify (escapeHtml l)).filter keepChar = l.filter keepChar := by
    intro l
    show (boldifyF (escapeHtml l).length (escapeHtml l)).filter keepChar =
      l.filter keepChar
    rw [boldifyF_filter (escapeHtml l).length (escapeHtml l) le_rfl,
      escapeHtml_filter]
  refine ⟨hbe, hbe, hbe, ?_, ?_, by decide, by decide⟩
  · intro l
    show (escapeHtml (stripHeadingMarks l)).filter keepChar = l.filter keepChar
    rw [escapeHtml_filter, stripHeadingMarks_filter]
  · intro l h
    have he : escapeHtml l = l :=
      escapeHtml_id l (fun c hc => (h c hc).2)
    have hb : boldify l = l :=
      boldifyF_id l.length l le_rfl (fun c hc => (h c hc).1)
    have hcomp : boldify (escapeHtml l) = l := by rw [he, hb]
    exact ⟨hcomp, hcomp, hcomp⟩

/-- Witness for C10 at a concrete bullet text containing inline code and
a full link. -/
theorem literal_markup_outside_paragraphs_witness :
    bulletTransform ("`q` [a](b)".data) = ("`q` [a](b)".data) :=
  (literal_markup_outside_paragraphs.2.2.2.2.1 ("`q` [a](b)".data)
    (by decide)).1

/-! ## C9: pre-parse deletion of bracketed button/PDF text

Embeds lines 123-125 of `pdf_utils.py`:

    markdown_text = re.sub(r"\\[.*?버튼.*?\\]", "", markdown_text)
    markdown_text = re.sub(r"\\[.*?PDF.*?\\]", "", markdown_text)

Semantics of one `re.sub` with this pattern shape (bracket, lazy gap, a
fixed word `w`, lazy gap, bracket), replacement empty:

* matches are found leftmost and non-overlapping; a match can only start
  at an open bracket;
* the dot does not cross newlines, so a whole match lies within one line;
* lazy groups make the extent of a match starting at a given bracket:
  up to the first occurrence of `w` on the rest of the line, then up to
  the first close bracket after it on the line (if either is missing the
  regex backtracks to later occurrences of `w`, but a close bracket after
  a later occurrence is also after the first, so "first occurrence"
  captures the backtracking exactly).

`mAtCore` computes the number of characters a match starting right after
an open bracket consumes (within the current line `lp`), `subWF` is the
fueled scanner performing the substitution, and `hasMatch` tests whether
a string still contains a match of the pattern.
-/

def firstOcc (w : List Char) : List Char → Option ℕ
  | [] => none
  | c :: rest =>
      if w.isPrefixOf (c :: rest) then some 0
      else (firstOcc w rest).map (fun i => i + 1)

/-- The current line: everything up to the first newline. -/
def lineOf (l : List Char) : List Char :=
  l.takeWhile (fun c => decide (c ≠ '\n'))

/-- Characters consumed after the opening bracket by a lazy match of
gap-w-gap-bracket inside the line `lp`: up to the first occurrence of
`w`, then up to (and including) the first close bracket after it. -/
def mAtCore (w lp : List Char) : Option ℕ :=
  match firstOcc w lp with
  | none => none
  | some i =>
      match firstOcc ([']']) (lp.drop (i + w.length)) with
      | none => none
      | some j => some (i + w.length + j + 1)

def mAt (w l : List Char) : Option ℕ := mAtCore w (lineOf l)

def subWF (w : List Char) : ℕ → List Char → List Char
  | 0, l => l
  | _ + 1, [] => []
  | f + 1, c :: rest =>
      if c = '[' then
        match mAt w rest with
        | some n => subWF w f (rest.drop n)
        | none => c :: subWF w f rest
      else c :: subWF w f rest

def subW (w l : List Char) : List Char := subWF w l.length l

def hasMatch (w : List Char) : List Char → Bool
  | [] => false
  | c :: rest => (decide (c = '[') && (mAt w rest).isSome) || hasMatch w rest

/-- The two substitutions, applied in source order. -/
def cleanMarkdown (l : List Char) : List Char :=
  subW ("PDF".data) (subW ("버튼".data) l)

/-! ### Basic facts about isPrefixOf and firstOcc -/

theorem pre_append (w x : List Char) : w.isPrefixOf (w ++ x) = true := by
  induction w with
  | nil => simp [List.isPrefixOf]
  | cons a w2 ih =>
      show (a == a && w2.isPrefixOf (w2 ++ x)) = true
      simp [ih]

theorem singleton_pre_mem {c : Char} {x : List Char}
    (h : List.isPrefixOf [c] x = true) : c ∈ x := by
  cases x with
  | nil => simp [List.isPrefixOf] at h
  | cons b bs =>
      have hc : c = b := by
        have h2 : (c == b && List.isPrefixOf ([] : List Char) bs) = true := h
        simp at h2
        exact h2
      subst hc
      exact List.mem_cons_self c bs

theorem mem_singleton_pre {c : Char} {x : List Char} (h : c ∈ x) :
    ∃ k, List.isPrefixOf [c] (x.drop k) = true := by
  induction x with
  | nil => cases h
  | cons b bs ih =>
      rcases List.mem_cons.mp h with rfl | hm
      · refine ⟨0, ?_⟩
        show (c == c && List.isPrefixOf ([] : List Char) bs) = true
        simp
      · obtain ⟨k, hk⟩ := ih hm
        exact ⟨k + 1, hk⟩

theorem firstOcc_cons (w : List Char) (c : Char) (rest : List Char) :
    firstOcc w (c :: rest) =
      if w.isPrefixOf (c :: rest) then some 0
      else (firstOcc w rest).map (fun i => i + 1) := rfl

theorem firstOcc_some_pre {w : List Char} :
    ∀ {l : List Char} {i : ℕ}, firstOcc w l = some i →
      w.isPrefixOf (l.drop i) = true := by
  intro l
  induction l with
  | nil => intro i h; simp [firstOcc] at h
  | cons c rest ih =>
      intro i h
      rw [firstOcc_cons] at h
      by_cases hp : w.isPrefixOf (c :: rest) = true
      · rw [if_pos hp] at h
        simp only [Option.some.injEq] at h
        subst h
        exact hp
      · rw [if_neg hp] at h
        cases hm : firstOcc w rest with
        | none => rw [hm] at h; simp at h
        | some i2 =>
            rw [hm] at h
            simp only [Option.map_some', Option.some.injEq] at h
            subst h
            exact ih hm

theorem firstOcc_isSome_of_pre {w : List Char} (hw : w ≠ []) :
    ∀ (l : List Char) (i : ℕ), w.isPrefixOf (l.drop i) = true →
      (firstOcc w l).isSome = true := by
  intro l
  induction l with
  | nil =>
      intro i h
      rw [List.drop_nil] at h
      cases w with
      | nil => exact absurd rfl hw
      | cons a w2 => simp [List.isPrefixOf] at h
  | cons c rest ih =>
      intro i h
      rw [firstOcc_cons]
      by_cases hp : w.isPrefixOf (c :: rest) = true
      · rw [if_pos hp]; rfl
      · rw [if_neg hp]
        cases i with
        | zero => exact absurd h hp
        | succ j =>
            have hsome := ih j h
            cases hm : firstOcc w rest with
            | none => rw [hm] at hsome; simp at hsome
            | some i2 => rfl

theorem firstOcc_min {w : List Char} :
    ∀ {l : List Char} {i j : ℕ}, firstOcc w l = some i →
      w.isPrefixOf (l.drop j) = true → i ≤ j := by
  intro l
  induction l with
  | nil => intro i j h; simp [firstOcc] at h
  | cons c rest ih =>
      intro i j h hj
      rw [firstOcc_cons] at h
      by_cases hp : w.isPrefixOf (c :: rest) = true
      · rw [if_pos hp] at h
        simp only [Option.some.injEq] at h
        omega
      · rw [if_neg hp] at h
        cases hm : firstOcc w rest with
        | none => rw [hm] at h; simp at h
        | some i2 =>
            rw [hm] at h
            simp only [Option.map_some', Option.some.injEq] at h
            subst h
            cases j with
            | zero => exact absurd hj hp
            | succ j2 => exact Nat.succ_le_succ (ih hm hj)

/-- A lazy match exists inside the line `lp`: some occurrence of `w`
followed (later in the line) by a close bracket. -/
def MPresent (w lp : List Char) : Prop :=
  ∃ i, w.isPrefixOf (lp.drop i) = true ∧ ']' ∈ lp.drop (i + w.length)

theorem mAtCore_isSome_iff {w lp : List Char} (hw : w ≠ []) :
    (mAtCore w lp).isSome = true ↔ MPresent w lp := by
  constructor
  · intro h
    unfold mAtCore at h
    split at h
    · simp at h
    · rename_i i h1
      split at h
      · simp at h
      · rename_i j h2
        refine ⟨i, firstOcc_some_pre h1, ?_⟩
        have hpre := firstOcc_some_pre h2
        have hmem := singleton_pre_mem hpre
        exact List.drop_subset _ _ hmem
  · rintro ⟨i, hpre, hmem⟩
    have h1 : (firstOcc w lp).isSome = true :=
      firstOcc_isSome_of_pre hw lp i hpre
    obtain ⟨i0, h1⟩ := Option.isSome_iff_exists.mp h1
    have hle : i0 ≤ i := firstOcc_min h1 hpre
    have hmem0 : ']' ∈ lp.drop (i0 + w.length) := by
      have hdd : (lp.drop (i0 + w.length)).drop (i - i0) =
          lp.drop (i + w.length) := by
        rw [List.drop_drop]
        congr 1
        omega
      rw [← hdd] at hmem
      exact List.drop_subset _ _ hmem
    obtain ⟨k, hk⟩ := mem_singleton_pre hmem0
    have h2 : (firstOcc ([']']) (lp.drop (i0 + w.length))).isSome = true :=
      firstOcc_isSome_of_pre (by simp) _ k hk
    obtain ⟨j, h2⟩ := Option.isSome_iff_exists.mp h2
    unfold mAtCore
    split
    · rename_i hx
      rw [h1] at hx
      exact absurd hx (by simp)
    · rename_i i1 hx
      rw [h1] at hx
      have hi : i1 = i0 := by
        have := Option.some.inj hx
        omega
      subst hi
      split
      · rename_i hy
        rw [h2] at hy
        exact absurd hy (by simp)
      · rfl

theorem MPresent_cons {w lp : List Char} (c : Char) :
    MPresent w lp → MPresent w (c :: lp) := by
  rintro ⟨i, hpre, hmem⟩
  refine ⟨i + 1, ?_, ?_⟩
  · rw [List.drop_succ_cons]
    exact hpre
  · rw [show i + 1 + w.length = (i + w.length) + 1 by omega,
      List.drop_succ_cons]
    exact hmem

theorem mAtCore_none_cons {w lp : List Char} (hw : w ≠ []) (c : Char)
    (h : mAtCore w (c :: lp) = none) : mAtCore w lp = none := by
  by_contra hne
  have hs : (mAtCore w lp).isSome = true :=
    Option.ne_none_iff_isSome.mp hne
  have hp := (mAtCore_isSome_iff hw).mp hs
  have hcons := (mAtCore_isSome_iff hw).mpr (MPresent_cons c hp)
  rw [h] at hcons
  simp at hcons

theorem lineOf_cons_nl (l : List Char) : lineOf ('\n' :: l) = [] := rfl

theorem lineOf_cons_ne {c : Char} (hc : c ≠ '\n') (l : List Char) :
    lineOf (c :: l) = c :: lineOf l := by
  unfold lineOf
  rw [List.takeWhile_cons, if_pos (by simpa using hc)]

theorem subWF_open_some (w : List Char) (f : ℕ) (rest : List Char) (n : ℕ)
    (hm : mAt w rest = some n) :
    subWF w (f + 1) ('[' :: rest) = subWF w f (rest.drop n) := by
  show (if ('[' : Char) = '[' then
      (match mAt w rest with
        | some n => subWF w f (rest.drop n)
        | none => '[' :: subWF w f rest)
    else '[' :: subWF w f rest) = _
  rw [if_pos rfl, hm]

theorem subWF_open_none (w : List Char) (f : ℕ) (rest : List Char)
    (hm : mAt w rest = none) :
    subWF w (f + 1) ('[' :: rest) = '[' :: subWF w f rest := by
  show (if ('[' : Char) = '[' then
      (match mAt w rest with
        | some n => subWF w f (rest.drop n)
        | none => '[' :: subWF w f rest)
    else '[' :: subWF w f rest) = _
  rw [if_pos rfl, hm]

theorem subWF_other (w : List Char) (f : ℕ) {c : Char} (rest : List Char)
    (hc : c ≠ '[') :
    subWF w (f + 1) (c :: rest) = c :: subWF w f rest := by
  show (if c = '[' then
      (match mAt w rest with
        | some n => subWF w f (rest.drop n)
        | none => c :: subWF w f rest)
    else c :: subWF w f rest) = _
  rw [if_neg hc]

/-- Substitution with no match possible on the current line leaves the
current line untouched. -/
theorem lineOf_subWF {w : List Char} (hw : w ≠ []) :
    ∀ (f : ℕ) (l : List Char), l.length ≤ f → mAt w l = none →
      lineOf (subWF w f l) = lineOf l := by
  intro f
  induction f with
  | zero =>
      intro l hl _
      have hnil : l = [] := List.eq_nil_of_length_eq_zero (Nat.le_zero.mp hl)
      subst hnil
      rfl
  | succ f ih =>
      intro l hl hnone
      cases l with
      | nil => rfl
      | cons c rest =>
          have hlen : rest.length ≤ f := by
            simp only [List.length_cons] at hl
            omega
          by_cases hnl : c = '\n'
          · subst hnl
            rw [subWF_other w f rest (by decide), lineOf_cons_nl,
              lineOf_cons_nl]
          · have hl2 : lineOf (c :: rest) = c :: lineOf rest :=
              lineOf_cons_ne hnl rest
            have hcore : mAtCore w (c :: lineOf rest) = none := by
              have heq : mAt w (c :: rest) = mAtCore w (c :: lineOf rest) := by
                unfold mAt
                rw [hl2]
              rw [← heq]
              exact hnone
            have hrest : mAt w rest = none := mAtCore_none_cons hw c hcore
            by_cases hc : c = '['
            · subst hc
              rw [subWF_open_none w f rest hrest, lineOf_cons_ne hnl,
                lineOf_cons_ne hnl, ih rest hlen hrest]
            · rw [subWF_other w f rest hc, lineOf_cons_ne hnl,
                lineOf_cons_ne hnl, ih rest hlen hrest]

theorem hasMatch_cons (w : List Char) (c : Char) (rest : List Char) :
    hasMatch w (c :: rest) =
      ((decide (c = '[') && (mAt w rest).isSome) || hasMatch w rest) := rfl

theorem hasMatch_cons_false {w : List Char} {c : Char} {rest : List Char}
    (h : hasMatch w (c :: rest) = false) : hasMatch w rest = false := by
  rw [hasMatch_cons] at h
  exact (Bool.or_eq_false_iff.mp h).2

theorem hasMatch_drop {w : List Char} :
    ∀ (n : ℕ) (l : List Char), hasMatch w l = false →
      hasMatch w (l.drop n) = false := by
  intro n
  induction n with
  | zero => intro l h; exact h
  | succ k ih =>
      intro l h
      cases l with
      | nil => exact h
      | cons c rest => exact ih rest (hasMatch_cons_false h)

/-- After substituting away every match of `w`, no match of `w` remains. -/
theorem hasMatch_subWF_self {w : List Char} (hw : w ≠ []) :
    ∀ (f : ℕ) (l : List Char), l.length ≤ f →
      hasMatch w (subWF w f l) = false := by
  intro f
  induction f with
  | zero =>
      intro l hl
      have hnil : l = [] := List.eq_nil_of_length_eq_zero (Nat.le_zero.mp hl)
      subst hnil
      rfl
  | succ f ih =>
      intro l hl
      cases l with
      | nil => rfl
      | cons c rest =>
          have hlen : rest.length ≤ f := by
            simp only [List.length_cons] at hl
            omega
          by_cases hc : c = '['
          · subst hc
            cases hm : mAt w rest with
            | some n =>
                rw [subWF_open_some w f rest n hm]
                exact ih (rest.drop n) (by rw [List.length_drop]; omega)
            | none =>
                rw [subWF_open_none w f rest hm, hasMatch_cons]
                have hline := lineOf_subWF hw f rest hlen hm
                have hm2 : mAt w (subWF w f rest) = none := by
                  unfold mAt
                  rw [hline]
                  exact hm
                rw [hm2]
                simp [ih rest hlen]
          · rw [subWF_other w f rest hc, hasMatch_cons]
            have hcf : decide (c = '[') = false := by simp [hc]
            rw [hcf]
            simp [ih rest hlen]

/-- Substituting matches of one word cannot create matches of another:
any surviving open bracket has its whole line preserved. -/
theorem hasMatch_subWF_other {w1 w2 : List Char} (hw2 : w2 ≠ []) :
    ∀ (f : ℕ) (l : List Char), l.length ≤ f → hasMatch w1 l = false →
      hasMatch w1 (subWF w2 f l) = false := by
  intro f
  induction f with
  | zero => intro l _ h; exact h
  | succ f ih =>
      intro l hl h
      cases l with
      | nil => rfl
      | cons c rest =>
          have hlen : rest.length ≤ f := by
            simp only [List.length_cons] at hl
            omega
          have hrest : hasMatch w1 rest = false := hasMatch_cons_false h
          by_cases hc : c = '['
          · subst hc
            cases hm : mAt w2 rest with
            | some n =>
                rw [subWF_open_some w2 f rest n hm]
                exact ih (rest.drop n) (by rw [List.length_drop]; omega)
                  (hasMatch_drop n rest hrest)
            | none =>
                rw [subWF_open_none w2 f rest hm, hasMatch_cons]
                have hline := lineOf_subWF hw2 f rest hlen hm
                have hm1 : (mAt w1 (subWF w2 f rest)).isSome = false := by
                  unfold mAt
                  rw [hline]
                  have hm1' : (mAt w1 rest).isSome = false := by
                    rw [hasMatch_cons] at h
                    have hfst := (Bool.or_eq_false_iff.mp h).1
                    simpa using hfst
                  unfold mAt at hm1'
                  exact hm1'
                rw [hm1]
                simp [ih rest hlen hrest]
          · rw [subWF_other w2 f rest hc, hasMatch_cons]
            have hcf : decide (c = '[') = false := by simp [hc]
            rw [hcf]
            simp [ih rest hlen hrest]

theorem lineOf_append_of {a : List Char} (b : List Char)
    (h : ∀ c ∈ a, c ≠ '\n') : lineOf (a ++ b) = a ++ lineOf b := by
  induction a with
  | nil => rfl
  | cons c a2 ih =>
      have hc := h c (List.mem_cons_self c a2)
      rw [List.cons_append, lineOf_cons_ne hc,
        ih (fun x hx => h x (List.mem_cons_of_mem c hx)), List.cons_append]

/-- Any explicit single-line bracketed occurrence of `w` is a match. -/
theorem hasMatch_of_split {w : List Char} (hw : w ≠ [])
    (hwn : ∀ c ∈ w, c ≠ '\n') :
    ∀ (u s t v : List Char), (∀ c ∈ s, c ≠ '\n') → (∀ c ∈ t, c ≠ '\n') →
      hasMatch w (u ++ '[' :: (s ++ w ++ t ++ ']' :: v)) = true := by
  intro u
  induction u with
  | nil =>
      intro s t v hs ht
      rw [List.nil_append, hasMatch_cons]
      have hsome : (mAt w (s ++ w ++ t ++ ']' :: v)).isSome = true := by
        unfold mAt
        have hall : ∀ c ∈ (s ++ w) ++ t, c ≠ '\n' := by
          intro c hcm
          rcases List.mem_append.mp hcm with hcm2 | hcm2
          · rcases List.mem_append.mp hcm2 with hcm3 | hcm3
            · exact hs c hcm3
            · exact hwn c hcm3
          · exact ht c hcm2
        have hline : lineOf (s ++ w ++ t ++ ']' :: v) =
            s ++ w ++ t ++ ']' :: lineOf v := by
          rw [show s ++ w ++ t ++ (']' :: v) = ((s ++ w) ++ t) ++ (']' :: v) by
            simp [List.append_assoc]]
          rw [lineOf_append_of (']' :: v) hall,
            lineOf_cons_ne (by decide) v]
        rw [hline]
        apply (mAtCore_isSome_iff hw).mpr
        refine ⟨s.length, ?_, ?_⟩
        · rw [show s ++ w ++ t ++ (']' :: lineOf v) =
              s ++ (w ++ (t ++ (']' :: lineOf v))) by simp [List.append_assoc]]
          rw [List.drop_left]
          exact pre_append w _
        · rw [show s ++ w ++ t ++ (']' :: lineOf v) =
              (s ++ w) ++ (t ++ (']' :: lineOf v)) by simp [List.append_assoc]]
          rw [show s.length + w.length = (s ++ w).length by simp]
          rw [List.drop_left]
          exact List.mem_append.mpr (Or.inr (List.mem_cons_self _ _))
      rw [hsome]
      simp
  | cons c u2 ih =>
      intro s t v hs ht
      rw [List.cons_append, hasMatch_cons, ih s t v hs ht]
      simp

/-- The string `l` contains a single-line bracketed occurrence of `w`:
an open bracket, then (no newline) an occurrence of `w`, then (no
newline) a close bracket. -/
def HasBracketed (w l : List Char) : Prop :=
  ∃ u s t v, l = u ++ '[' :: (s ++ w ++ t ++ ']' :: v) ∧
    (∀ c ∈ s, c ≠ '\n') ∧ (∀ c ∈ t, c ≠ '\n')

/-- C9, counterexample.  The claim's parenthetical "any bracketed text
containing 버튼" is too strong: the regex wildcard does not cross
newlines, so bracketed text spanning two lines survives both
substitutions unchanged and does reach the block parser.  Here the input
is exactly an open bracket, text with a newline, 버튼, and a close
bracket, and `cleanMarkdown` is the identity on it. -/
theorem bracket_filter_counterexample :
    cleanMarkdown ("[a\n버튼] x".data) = ("[a\n버튼] x".data) ∧
    ("[a\n버튼] x".data : List Char) =
      '[' :: (("a\n".data) ++ ("버튼".data) ++ ']' :: (" x".data)) := by
  constructor
  · decide
  · decide

/-- C9, amended.  What the two `re.sub` calls do guarantee: after
cleaning, the markdown contains no single-line bracketed substring
containing 버튼 and none containing PDF — every match of either pattern
is deleted, deletion never creates a new match of either pattern, and so
no such text reaches the block parser.  (Bracketed text whose gap spans a
newline is outside both patterns and is kept, per the counterexample.) -/
theorem bracket_filter_amended (l : List Char) :
    ¬ HasBracketed ("버튼".data) (cleanMarkdown l) ∧
    ¬ HasBracketed ("PDF".data) (cleanMarkdown l) := by
  have hbtn : ("버튼".data : List Char) ≠ [] := by decide
  have hpdf : ("PDF".data : List Char) ≠ [] := by decide
  have hbtnn : ∀ c ∈ ("버튼".data : List Char), c ≠ '\n' := by decide
  have hpdfn : ∀ c ∈ ("PDF".data : List Char), c ≠ '\n' := by decide
  have h1 : hasMatch ("버튼".data) (subW ("버튼".data) l) = false :=
    hasMatch_subWF_self hbtn l.length l le_rfl
  have h2 : hasMatch ("버튼".data) (cleanMarkdown l) = false :=
    hasMatch_subWF_other hpdf (subW ("버튼".data) l).length
      (subW ("버튼".data) l) le_rfl h1
  have h3 : hasMatch ("PDF".data) (cleanMarkdown l) = false :=
    hasMatch_subWF_self hpdf (subW ("버튼".data) l).length
      (subW ("버튼".data) l) le_rfl
  constructor
  · rintro ⟨u, s, t, v, heq, hs, ht⟩
    have hm := hasMatch_of_split hbtn hbtnn u s t v hs ht
    rw [← heq] at hm
    rw [h2] at hm
    exact absurd hm (by simp)
  · rintro ⟨u, s, t, v, heq, hs, ht⟩
    have hm := hasMatch_of_split hpdf hpdfn u s t v hs ht
    rw [← heq] at hm
    rw [h3] at hm
    exact absurd hm (by simp)

end PdfUtils
